import Mathlib

/-!
Shallow embedding of the `If` control-flow kernel
(`onnxruntime/core/providers/cpu/controlflow/if.cc`) and of the
scatter/gather helper `ExecuteLambdaInParallel`
(`onnxruntime/core/providers/cpu/rnn/rnn_helpers.h`).

C++ `Status` / thrown `ORT_ENFORCE` failures are modelled uniformly as
`Except IfError`; opaque `OrtValue` buffers are modelled by a small
inductive that records where and with which shape a buffer was allocated,
which is all the control-flow code ever does with them.
-/

set_option autoImplicit false

namespace OnnxIf

/-- Errors surfaced by the embedded code. Each constructor corresponds to one
`ORT_ENFORCE` / `ORT_MAKE_STATUS` site in `if.cc` (spec taxonomy name in
parentheses). `runnerFailure` stands for an arbitrary failure produced by the
external subgraph runner (spec: PropagatedFailure). -/
inductive IfError where
  /-- `If::Info::Info`, line 65: subgraph output count vs node output count. -/
  | arityMismatch (nodeOutputs subgraphOutputs : Nat)
  /-- `If::SetupSubgraphExecutionInfo`, line 137: duplicate setup for a branch. -/
  | setupOrderViolation
  /-- `If::Compute`, line 193: a feeds/fetches manager was never created. -/
  | notSetUp
  /-- `If::Compute`, line 202: no SessionState for the selected attribute. -/
  | sessionStateMissing
  /-- `IfImpl::AllocateOutputTensors`, line 242: output with no shape proto. -/
  | shapeMissing (name : String)
  /-- `IfImpl::AllocateOutputTensors`, line 256: `context_.Output` returned null. -/
  | outputAllocFailed (name : String)
  /-- `FeedsFetchesManager::Create` failure (spec: UnresolvedName). -/
  | unresolvedName (name : String)
  /-- Dereference of a null `If::Info` in `If::Compute` line 204-205; undefined
  behaviour in C++, distinguished here. Unreachable for states produced by
  `setupSubgraphExecutionInfo`. -/
  | nullInfoDeref
  /-- A failure returned by the external subgraph runner (`utils::ExecuteSubgraph`). -/
  | runnerFailure (msg : String)
  deriving DecidableEq, Repr

/-- A dimension of a `TensorShapeProto`: a concrete `dim_value` or a symbolic
`dim_param` / unknown dimension. -/
inductive Dim where
  | value (n : Nat)
  | symbolic
  deriving DecidableEq, Repr

/-- One output of the subgraph (`NodeArg`): its name and optional shape proto
(`graph_output->Shape()` may be null). -/
structure OutputDef where
  name : String
  shape : Option (List Dim)
  deriving DecidableEq, Repr

/-- The subgraph as seen through `GraphViewer`: its declared outputs in order. -/
structure GraphViewer where
  outputs : List OutputDef
  deriving DecidableEq, Repr

/-- The `If` node: its implicit input defs (names, in enclosing-scope order)
and its output defs (names, in declared order). -/
structure Node where
  implicitInputDefs : List String
  outputDefs : List String
  deriving DecidableEq, Repr

/-- An `OrtValue` as the control-flow code manipulates it: either the
default-constructed empty value (`{}` at line 251) or a buffer allocated by the
enclosing context at a given output slot with a given concrete shape
(`context_.Output(index, shape)` + `context_.GetOutputMLValue(index)`). -/
inductive OrtValue where
  | empty
  | allocated (slot : Nat) (shape : List Nat)
  deriving DecidableEq, Repr

/-- Modelled from the spec: `GetTensorShapeFromTensorShapeProto` and
`TensorShape::Size` are not under src; per the spec an output shape
"has an unresolved dimension" exactly when the converted shape has
`Size() < 0`, i.e. when some dimension is symbolic. -/
def shapeHasSymbolic (dims : List Dim) : Bool :=
  dims.any fun d => match d with
    | .symbolic => true
    | .value _ => false

/-- The concrete dimensions of a fully resolved shape proto. Only consulted
when `shapeHasSymbolic` is false, so the value chosen for a symbolic
dimension is irrelevant. -/
def concreteShape (dims : List Dim) : List Nat :=
  dims.map fun d => match d with
    | .value n => n
    | .symbolic => 0

/-- The per-invocation kernel context (`OpKernelContextInternal`): the condition
input, the captured implicit-input values (`GetImplicitInputs()`, one per
implicit input def of the node, same order), and the enclosing scope's output
allocator (`context_.Output(index, shape)`, which may fail and return null). -/
structure KernelContext where
  condition : Bool
  implicitInputs : List OrtValue
  allocOutput : Nat → List Nat → Option OrtValue

/-- `If::Info`, as it stands after construction plus the pruning performed by
`SetupSubgraphExecutionInfo` (which mutates `used_implicit_inputs` and
`num_implicit_inputs` in place). -/
structure Info where
  usedImplicitInputs : List Bool
  numImplicitInputs : Nat
  numOutputs : Nat
  subgraphOutputNames : List String
  subgraph : GraphViewer
  deriving DecidableEq, Repr

/-- `If::Info::Info(node, subgraph)`: captures counts and subgraph output
names; `ORT_ENFORCE` fails when the subgraph's output count differs from the
node's output count. -/
def Info.make (node : Node) (subgraph : GraphViewer) : Except IfError Info :=
  let numImplicit := node.implicitInputDefs.length
  let numOutputs := node.outputDefs.length
  if subgraph.outputs.length = numOutputs then
    .ok { usedImplicitInputs := List.replicate numImplicit true
          numImplicitInputs := numImplicit
          numOutputs := numOutputs
          subgraphOutputNames := subgraph.outputs.map (·.name)
          subgraph := subgraph }
  else
    .error (.arityMismatch numOutputs subgraph.outputs.length)

/-- A feeds/fetches manager: the feed names (pruned implicit-input names) and
fetch names (subgraph output names) it was created with. The copy/location
info it additionally carries (`InitializeFeedFetchCopyInfo`,
`FinalizeFeedFetchCopyInfo`, `FindDevicesForValues`) only affects cross-device
copying, which no claim touches, and is omitted. -/
structure FeedsFetchesManager where
  feedNames : List String
  fetchNames : List String
  deriving DecidableEq, Repr

/-- Modelled from the spec: `FeedsFetchesManager::Create` is not under src;
per the spec, plan construction "fails with UnresolvedName if a used capture
name cannot be mapped to a subgraph input slot" (the name-to-slot map is
`subgraph_session_state.GetOrtValueNameIdxMap()`). -/
def FeedsFetchesManager.create (feedNames fetchNames : List String)
    (subgraphValueNames : List String) : Except IfError FeedsFetchesManager :=
  match feedNames.find? (fun n => n ∉ subgraphValueNames) with
  | some n => .error (.unresolvedName n)
  | none => .ok { feedNames := feedNames, fetchNames := fetchNames }

/-- The subgraph `SessionState`: its `GraphViewer` and the names present in
its `OrtValueNameIdxMap` (only membership of a name matters to `if.cc`;
`GetIdx(name, idx).IsOK()` holds exactly when the name is in the map). -/
structure SubgraphSessionState where
  graphViewer : GraphViewer
  ortValueNames : List String
  deriving DecidableEq, Repr

/-- The pruning loop of `If::SetupSubgraphExecutionInfo` (lines 151-160): for
each implicit input, if its name resolves in the subgraph's map it is appended
to the feed names, otherwise its `used_implicit_inputs` entry is set to false.
Returns the final `used_implicit_inputs` vector and the feed-name list. -/
def pruneImplicitInputs : List String → List String → List Bool × List String
  | [], _ => ([], [])
  | n :: rest, subgraphValueNames =>
    let tail := pruneImplicitInputs rest subgraphValueNames
    if n ∈ subgraphValueNames then
      (true :: tail.1, n :: tail.2)
    else
      (false :: tail.1, tail.2)

/-- The mutable per-kernel state of `If`: `then_info_`, `else_info_`,
`then_feeds_fetches_manager_`, `else_feeds_fetches_manager_`; all null until
`SetupSubgraphExecutionInfo` runs for the corresponding branch. -/
structure IfKernel where
  thenInfo : Option Info
  elseInfo : Option Info
  thenFFM : Option FeedsFetchesManager
  elseFFM : Option FeedsFetchesManager
  deriving DecidableEq, Repr

/-- The state of a freshly constructed `If` kernel. -/
def IfKernel.fresh : IfKernel :=
  { thenInfo := none, elseInfo := none, thenFFM := none, elseFFM := none }

/-- `If::SetupSubgraphExecutionInfo(session_state, attribute_name,
subgraph_session_state)`. Selects the branch slot by
`attribute_name == "then_branch"`, enforces it was not set before, builds the
`Info`, prunes implicit inputs, and creates the feeds/fetches manager.
In C++ a failure of `FeedsFetchesManager::Create` would leave the `Info`
member already assigned; that path is unreachable because the feed names are
pruned to names present in the map (`create_on_pruned_feeds_ok` below), so the
error-discards-state simplification of `Except` is unobservable. -/
def If.setupSubgraphExecutionInfo (k : IfKernel) (node : Node)
    (attributeName : String) (sub : SubgraphSessionState) :
    Except IfError IfKernel :=
  let existing := if attributeName == "then_branch" then k.thenInfo else k.elseInfo
  match existing with
  | some _ => .error .setupOrderViolation
  | none =>
    match Info.make node sub.graphViewer with
    | .error e => .error e
    | .ok info0 =>
      let pr := pruneImplicitInputs node.implicitInputDefs sub.ortValueNames
      let info : Info :=
        { info0 with usedImplicitInputs := pr.1, numImplicitInputs := pr.2.length }
      match FeedsFetchesManager.create pr.2 info.subgraphOutputNames sub.ortValueNames with
      | .error e => .error e
      | .ok ffm =>
        if attributeName == "then_branch" then
          .ok { k with thenInfo := some info, thenFFM := some ffm }
        else
          .ok { k with elseInfo := some info, elseFFM := some ffm }

/-- `IfImpl::AllocationType`. -/
inductive AllocationType where
  | Delayed
  | IfOutput
  deriving DecidableEq, Repr

/-- The loop body of `IfImpl::AllocateOutputTensors` (lines 239-262), with the
running `index`. For each subgraph output: no shape proto fails; a shape with
a symbolic dimension records `(Delayed, empty)`; a fully concrete shape asks
the enclosing context to allocate at this output index and records
`(IfOutput, value)`, failing if the context returns null. -/
def allocateOutputLoop (ctx : KernelContext) :
    Nat → List OutputDef → Except IfError (List (AllocationType × OrtValue))
  | _, [] => .ok []
  | index, out :: rest =>
    match out.shape with
    | none => .error (.shapeMissing out.name)
    | some dims =>
      if shapeHasSymbolic dims then
        match allocateOutputLoop ctx (index + 1) rest with
        | .error e => .error e
        | .ok tail => .ok ((.Delayed, .empty) :: tail)
      else
        match ctx.allocOutput index (concreteShape dims) with
        | none => .error (.outputAllocFailed out.name)
        | some v =>
          match allocateOutputLoop ctx (index + 1) rest with
          | .error e => .error e
          | .ok tail => .ok ((.IfOutput, v) :: tail)

/-- `IfImpl::AllocateOutputTensors` (also the whole of `IfImpl::Initialize`,
which only calls it): iterate the subgraph outputs from index 0, producing the
`outputs_` vector of `(AllocationType, OrtValue)` pairs. -/
def allocateOutputTensors (ctx : KernelContext) (subgraph : GraphViewer) :
    Except IfError (List (AllocationType × OrtValue)) :=
  allocateOutputLoop ctx 0 subgraph.outputs

/-- The feed-building loop of `IfImpl::Execute` (lines 279-283): iterate
`used_implicit_inputs` and the implicit input values in lockstep, pushing the
value exactly when the entry is marked used. -/
def buildFeeds : List Bool → List OrtValue → List OrtValue
  | [], _ => []
  | _ :: _, [] => []
  | true :: us, v :: vs => v :: buildFeeds us vs
  | false :: us, _ :: vs => buildFeeds us vs

/-- The fetch list of `IfImpl::Execute` (line 290): `outputs_[i].second` for
each output index. The C++ loop runs `i` from 0 to `num_outputs`; `outputs_`
has exactly `num_outputs` entries (established by `AllocateOutputTensors`,
proved below), so iterating the list itself is the same traversal. -/
def buildFetches (outs : List (AllocationType × OrtValue)) : List OrtValue :=
  outs.map (·.2)

/-- The indices for which `IfImpl::Execute` registers a `fetch_allocators[i]`
callback (lines 292-305): exactly the output indices tagged `Delayed`,
with the running index threaded as in the C++ loop. -/
def delayedIndicesFrom : Nat → List (AllocationType × OrtValue) → List Nat
  | _, [] => []
  | i, (a, _) :: rest =>
    match a with
    | .Delayed => i :: delayedIndicesFrom (i + 1) rest
    | .IfOutput => delayedIndicesFrom (i + 1) rest

/-- The registered fetch-allocator indices, starting from output index 0. -/
def delayedIndices (outs : List (AllocationType × OrtValue)) : List Nat :=
  delayedIndicesFrom 0 outs

/-- The external subgraph runner (`utils::ExecuteSubgraph`), as `IfImpl`
invokes it: the feeds/fetches manager, the feed values, the fetch values, and
the indices carrying allocation callbacks. Sequential execution, the
terminate flag and the logger are fixed arguments with no bearing on the
claims. -/
def Runner : Type :=
  FeedsFetchesManager → List OrtValue → List OrtValue → List Nat →
    Except IfError Unit

/-- `IfImpl::Execute(ffm)` (lines 267-315): build the feeds from the used
implicit inputs, the fetches and the fetch-allocator indices from `outputs_`,
invoke the runner, and propagate its status (`ORT_RETURN_IF_ERROR(status);
return status`). -/
def ifImplExecute (runner : Runner) (info : Info) (ctx : KernelContext)
    (outs : List (AllocationType × OrtValue)) (ffm : FeedsFetchesManager) :
    Except IfError Unit :=
  let feeds := buildFeeds info.usedImplicitInputs ctx.implicitInputs
  let fetches := buildFetches outs
  let fetchAllocators := delayedIndices outs
  match runner ffm feeds fetches fetchAllocators with
  | .error e => .error e
  | .ok _ => .ok ()

/-- `If::Compute(ctx)` (lines 192-217). The runners stand for the per-branch
subgraph `SessionState`s: `ctx_internal->SubgraphSessionState(attribute)`
returning null is modelled by the selected runner being `none`. The checks
and selections happen in source order: both feeds/fetches managers enforced
present, the condition read, the session state of the selected attribute
looked up, the selected `Info` dereferenced, then Initialize (which is
AllocateOutputTensors) and Execute on the selected branch. -/
def If.compute (k : IfKernel) (thenRunner elseRunner : Option Runner)
    (ctx : KernelContext) : Except IfError Unit :=
  match k.thenFFM, k.elseFFM with
  | some thenFFM, some elseFFM =>
    let condition := ctx.condition
    match (if condition then thenRunner else elseRunner) with
    | none => .error .sessionStateMissing
    | some runner =>
      match (if condition then k.thenInfo else k.elseInfo) with
      | none => .error .nullInfoDeref
      | some info =>
        match allocateOutputTensors ctx info.subgraph with
        | .error e => .error e
        | .ok outs =>
          ifImplExecute runner info ctx outs
            (if condition then thenFFM else elseFFM)
  | _, _ => .error .notSetUp

/-- Dispatch on one branch's data only: the session-state check, Info
dereference, Initialize and Execute of `If::Compute` for the selected branch.
Used to state that `compute` touches only the selected branch. -/
def runBranch (infoOpt : Option Info) (ffm : FeedsFetchesManager)
    (runnerOpt : Option Runner) (ctx : KernelContext) : Except IfError Unit :=
  match runnerOpt with
  | none => .error .sessionStateMissing
  | some runner =>
    match infoOpt with
    | none => .error .nullInfoDeref
    | some info =>
      match allocateOutputTensors ctx info.subgraph with
      | .error e => .error e
      | .ok outs => ifImplExecute runner info ctx outs ffm

/-! ### ExecuteLambdaInParallel (`rnn_helpers.h`, lines 214-288) -/

/-- The scheduling loop `for (int i = 0; i < max; i += step)` of
`ExecuteLambdaInParallel`: the task indices in scheduling order. Guarded by
`0 < step` for termination; with `step = 0` and `0 < max` the C++ loop never
terminates, so only `0 < step` behaviour is modelled. -/
def scheduleFrom (maxv step i : Nat) : List Nat :=
  if 0 < step ∧ i < maxv then i :: scheduleFrom maxv step (i + step) else []
termination_by maxv - i
decreasing_by omega

/-- `total_tasks = max / (step > 0 ? step : 1) + (max % step > 0 ? 1 : 0)`
(line 263), used to reserve the futures vector. -/
def totalTasks (maxv step : Nat) : Nat :=
  maxv / (if 0 < step then step else 1) + (if maxv % step > 0 then 1 else 0)

/-- The gathering loop of `ExecuteLambdaInParallel` (lines 283-295): walk every
future in scheduling order, `get()` each one — success or failure — and keep
the first captured failure in `pending_exception`; later failures are
discarded. Faithfully visits the whole list even after a failure was
captured. -/
def collectFirst {ε : Type} : List (Option ε) → Option ε → Option ε
  | [], pending => pending
  | r :: rest, pending =>
    match pending with
    | some e => collectFirst rest (some e)
    | none => collectFirst rest r

/-- `ExecuteLambdaInParallel(name, lambda, max, step, ttp, logger)`: each
scheduled task runs `lambda(i)` with any thrown failure captured in its
promise (`none` = the task set a value, `some e` = it set exception `e`);
the caller then gathers every future and re-raises the first captured
failure, if any, after all tasks have been visited. -/
def ExecuteLambdaInParallel {ε : Type} (lambda : Nat → Option ε)
    (maxv step : Nat) : Option ε :=
  let results := (scheduleFrom maxv step 0).map lambda
  collectFirst results none

/-! ### Helper lemmas -/

/-- The pruning loop computes the membership map and the membership filter of
the implicit-input names. -/
theorem pruneImplicitInputs_eq (ins names : List String) :
    pruneImplicitInputs ins names =
      (ins.map (fun n => decide (n ∈ names)), ins.filter (fun n => n ∈ names)) := by
  induction ins with
  | nil => rfl
  | cons n rest ih =>
    by_cases hm : n ∈ names
    · simp [pruneImplicitInputs, ih, hm, List.filter_cons]
    · simp [pruneImplicitInputs, ih, hm, List.filter_cons]

/-- Creating the feeds/fetches manager on feed names that were pruned to the
subgraph's value-name map always succeeds: the UnresolvedName path is
unreachable after pruning. -/
theorem create_on_pruned_feeds_ok (ins names fetch : List String) :
    FeedsFetchesManager.create (ins.filter (fun n => n ∈ names)) fetch names =
      .ok { feedNames := ins.filter (fun n => n ∈ names), fetchNames := fetch } := by
  have hfind : (ins.filter (fun n => n ∈ names)).find?
      (fun n => n ∉ names) = none := by
    rw [List.find?_eq_none]
    intro x hx
    have hmem : x ∈ names := by simpa using List.of_mem_filter hx
    simp [hmem]
  simp only [FeedsFetchesManager.create, hfind]

/-- `If::Compute` with both feeds/fetches managers present dispatches on the
condition to a computation over the selected branch's data only. -/
theorem compute_dispatch (ti ei : Option Info) (tf ef : FeedsFetchesManager)
    (tr er : Option Runner) (ctx : KernelContext) :
    If.compute ⟨ti, ei, some tf, some ef⟩ tr er ctx =
      if ctx.condition then runBranch ti tf tr ctx else runBranch ei ef er ctx := by
  cases hc : ctx.condition <;> simp [If.compute, runBranch, hc]

/-- The `Info` produced for a branch by a successful setup: counts, output
names and pruned implicit-input usage. -/
def prunedInfo (node : Node) (sub : SubgraphSessionState) : Info :=
  { usedImplicitInputs := (pruneImplicitInputs node.implicitInputDefs sub.ortValueNames).1
    numImplicitInputs := (pruneImplicitInputs node.implicitInputDefs sub.ortValueNames).2.length
    numOutputs := node.outputDefs.length
    subgraphOutputNames := sub.graphViewer.outputs.map (·.name)
    subgraph := sub.graphViewer }

/-- The feeds/fetches manager produced for a branch by a successful setup. -/
def prunedFFM (node : Node) (sub : SubgraphSessionState) : FeedsFetchesManager :=
  { feedNames := (pruneImplicitInputs node.implicitInputDefs sub.ortValueNames).2
    fetchNames := sub.graphViewer.outputs.map (·.name) }

/-- A first setup call for a branch whose slot is still unset succeeds whenever
the arity check passes, and stores the pruned `Info` and manager in that
branch's slot, leaving the other branch's slots untouched. -/
theorem setup_ok_char (k : IfKernel) (node : Node) (attr : String)
    (sub : SubgraphSessionState)
    (hnone : (if attr == "then_branch" then k.thenInfo else k.elseInfo) = none)
    (hlen : sub.graphViewer.outputs.length = node.outputDefs.length) :
    If.setupSubgraphExecutionInfo k node attr sub =
      .ok (if attr == "then_branch"
           then { k with thenInfo := some (prunedInfo node sub)
                         thenFFM := some (prunedFFM node sub) }
           else { k with elseInfo := some (prunedInfo node sub)
                         elseFFM := some (prunedFFM node sub) }) := by
  have hmk : Info.make node sub.graphViewer =
      .ok { usedImplicitInputs := List.replicate node.implicitInputDefs.length true
            numImplicitInputs := node.implicitInputDefs.length
            numOutputs := node.outputDefs.length
            subgraphOutputNames := sub.graphViewer.outputs.map (·.name)
            subgraph := sub.graphViewer } := by
    simp [Info.make, hlen]
  have hcr := create_on_pruned_feeds_ok node.implicitInputDefs sub.ortValueNames
    (sub.graphViewer.outputs.map (·.name))
  cases hb : (attr == "then_branch") <;>
    · simp only [hb] at hnone
      simp at hnone
      simp [If.setupSubgraphExecutionInfo, hb, hnone, hmk, pruneImplicitInputs_eq, hcr,
        prunedInfo, prunedFFM]

/-- Characterization of a successful run of the allocation loop: one record
per output, `Delayed`/empty for a symbolic shape, `IfOutput` holding the
context-allocated buffer for slot `base + i` for a concrete shape. -/
theorem allocLoop_ok_char (ctx : KernelContext) :
    ∀ (outs : List OutputDef) (base : Nat) (recs : List (AllocationType × OrtValue)),
    allocateOutputLoop ctx base outs = .ok recs →
    recs.length = outs.length ∧
    ∀ i d, outs[i]? = some d →
      ∃ dims, d.shape = some dims ∧
        ((shapeHasSymbolic dims = true ∧ recs[i]? = some (.Delayed, .empty)) ∨
         (shapeHasSymbolic dims = false ∧
           ∃ v, ctx.allocOutput (base + i) (concreteShape dims) = some v ∧
             recs[i]? = some (.IfOutput, v))) := by
  intro outs
  induction outs with
  | nil =>
    intro base recs h
    simp only [allocateOutputLoop, Except.ok.injEq] at h
    subst h
    exact ⟨rfl, by intro i d hd; simp at hd⟩
  | cons out rest ih =>
    intro base recs h
    cases hsh : out.shape with
    | none => simp [allocateOutputLoop, hsh] at h
    | some dims =>
      cases hsym : shapeHasSymbolic dims with
      | true =>
        cases hrec : allocateOutputLoop ctx (base + 1) rest with
        | error e => simp [allocateOutputLoop, hsh, hsym, hrec] at h
        | ok tail =>
          simp only [allocateOutputLoop, hsh, hsym, if_true, hrec, Except.ok.injEq] at h
          subst h
          obtain ⟨hlen, hchar⟩ := ih (base + 1) tail hrec
          refine ⟨by simp [hlen], ?_⟩
          intro i d hd
          cases i with
          | zero =>
            simp only [List.getElem?_cons_zero, Option.some.injEq] at hd
            subst hd
            exact ⟨dims, hsh, Or.inl ⟨hsym, by simp⟩⟩
          | succ i =>
            simp only [List.getElem?_cons_succ] at hd ⊢
            obtain ⟨dims', hsh', hcase⟩ := hchar i d hd
            refine ⟨dims', hsh', ?_⟩
            rcases hcase with ⟨h1, h2⟩ | ⟨h1, v, h2, h3⟩
            · exact Or.inl ⟨h1, h2⟩
            · exact Or.inr ⟨h1, v, by rw [show base + (i + 1) = base + 1 + i by omega]; exact h2, h3⟩
      | false =>
        cases halloc : ctx.allocOutput base (concreteShape dims) with
        | none => simp [allocateOutputLoop, hsh, hsym, halloc] at h
        | some v0 =>
          cases hrec : allocateOutputLoop ctx (base + 1) rest with
          | error e => simp [allocateOutputLoop, hsh, hsym, halloc, hrec] at h
          | ok tail =>
            simp only [allocateOutputLoop, hsh, hsym, Bool.false_eq_true, if_false, halloc,
              hrec, Except.ok.injEq] at h
            subst h
            obtain ⟨hlen, hchar⟩ := ih (base + 1) tail hrec
            refine ⟨by simp [hlen], ?_⟩
            intro i d hd
            cases i with
            | zero =>
              simp only [List.getElem?_cons_zero, Option.some.injEq] at hd
              subst hd
              exact ⟨dims, hsh, Or.inr ⟨hsym, v0, by simpa using halloc, by simp⟩⟩
            | succ i =>
              simp only [List.getElem?_cons_succ] at hd ⊢
              obtain ⟨dims', hsh', hcase⟩ := hchar i d hd
              refine ⟨dims', hsh', ?_⟩
              rcases hcase with ⟨h1, h2⟩ | ⟨h1, v, h2, h3⟩
              · exact Or.inl ⟨h1, h2⟩
              · exact Or.inr ⟨h1, v, by rw [show base + (i + 1) = base + 1 + i by omega]; exact h2, h3⟩

/-- When the allocator is total, the allocation loop fails with the
ShapeMissing error of the first output without a shape proto. -/
theorem allocLoop_shapeMissing (ctx : KernelContext)
    (htotal : ∀ i s, ctx.allocOutput i s ≠ none) :
    ∀ (outs : List OutputDef) (base j : Nat) (d : OutputDef),
    outs[j]? = some d → d.shape = none →
    (∀ k dk, k < j → outs[k]? = some dk → dk.shape ≠ none) →
    allocateOutputLoop ctx base outs = .error (.shapeMissing d.name) := by
  intro outs
  induction outs with
  | nil => intro base j d hd; simp at hd
  | cons out rest ih =>
    intro base j d hd hshape hprev
    cases j with
    | zero =>
      simp only [List.getElem?_cons_zero, Option.some.injEq] at hd
      subst hd
      simp [allocateOutputLoop, hshape]
    | succ j =>
      simp only [List.getElem?_cons_succ] at hd
      have hout : out.shape ≠ none := hprev 0 out (by omega) (by simp)
      cases hsh : out.shape with
      | none => exact absurd hsh hout
      | some dims =>
        have hrec : allocateOutputLoop ctx (base + 1) rest = .error (.shapeMissing d.name) := by
          refine ih (base + 1) j d hd hshape ?_
          intro k dk hk hdk
          exact hprev (k + 1) dk (by omega) (by simpa using hdk)
        cases hsym : shapeHasSymbolic dims with
        | true => simp [allocateOutputLoop, hsh, hsym, hrec]
        | false =>
          cases halloc : ctx.allocOutput base (concreteShape dims) with
          | none => exact absurd halloc (htotal base (concreteShape dims))
          | some v => simp [allocateOutputLoop, hsh, hsym, halloc, hrec]

/-- Membership in the registered fetch-allocator indices: exactly the output
positions tagged `Delayed`, shifted by the loop's starting index. -/
theorem delayedIndicesFrom_mem :
    ∀ (outs : List (AllocationType × OrtValue)) (base j : Nat),
    j ∈ delayedIndicesFrom base outs ↔
      ∃ i v, j = base + i ∧ outs[i]? = some (.Delayed, v) := by
  intro outs
  induction outs with
  | nil => intro base j; simp [delayedIndicesFrom]
  | cons p rest ih =>
    intro base j
    obtain ⟨a, v0⟩ := p
    cases a with
    | Delayed =>
      simp only [delayedIndicesFrom, List.mem_cons, ih]
      constructor
      · rintro (rfl | ⟨i, v, rfl, hi⟩)
        · exact ⟨0, v0, by omega, by simp⟩
        · exact ⟨i + 1, v, by omega, by simpa using hi⟩
      · rintro ⟨i, v, rfl, hi⟩
        cases i with
        | zero =>
          simp only [List.getElem?_cons_zero, Option.some.injEq] at hi
          exact Or.inl (by omega)
        | succ i =>
          simp only [List.getElem?_cons_succ] at hi
          exact Or.inr ⟨i, v, by omega, hi⟩
    | IfOutput =>
      simp only [delayedIndicesFrom, ih]
      constructor
      · rintro ⟨i, v, rfl, hi⟩
        exact ⟨i + 1, v, by omega, by simpa using hi⟩
      · rintro ⟨i, v, rfl, hi⟩
        cases i with
        | zero => simp at hi
        | succ i =>
          simp only [List.getElem?_cons_succ] at hi
          exact ⟨i, v, by omega, hi⟩

/-- Once a failure is pending, the gathering loop keeps it to the end. -/
theorem collectFirst_some_pending {ε : Type} (rs : List (Option ε)) (e : ε) :
    collectFirst rs (some e) = some e := by
  induction rs with
  | nil => rfl
  | cons r rest ih => simp only [collectFirst, ih]

/-- The gathering loop returns success exactly when every task succeeded. -/
theorem collectFirst_none_iff {ε : Type} (rs : List (Option ε)) :
    collectFirst rs none = none ↔ ∀ r ∈ rs, r = none := by
  induction rs with
  | nil => simp [collectFirst]
  | cons r rest ih =>
    cases r with
    | none => simp [collectFirst, ih]
    | some e =>
      simp [collectFirst, collectFirst_some_pending]

/-- The gathering loop re-raises `e` exactly when `e` is the first captured
failure in scheduling order: all results before it are successes. -/
theorem collectFirst_some_iff {ε : Type} (rs : List (Option ε)) (e : ε) :
    collectFirst rs none = some e ↔
      ∃ pre rest, rs = pre ++ some e :: rest ∧ ∀ x ∈ pre, x = none := by
  induction rs with
  | nil =>
    simp only [collectFirst]
    constructor
    · intro h; exact absurd h (by simp)
    · rintro ⟨pre, rest, habs, -⟩
      exact absurd habs (by simp)
  | cons r rest ih =>
    cases r with
    | some e0 =>
      simp only [collectFirst, collectFirst_some_pending]
      constructor
      · intro h
        obtain rfl : e0 = e := by injection h
        exact ⟨[], rest, rfl, by simp⟩
      · rintro ⟨pre, rest2, heq, hall⟩
        cases pre with
        | nil =>
          simp only [List.nil_append, List.cons.injEq] at heq
          rw [heq.1]
        | cons p pre2 =>
          simp only [List.cons_append, List.cons.injEq] at heq
          have hp : p = none := hall p (by simp)
          rw [hp] at heq
          exact absurd heq.1 (by simp)
    | none =>
      simp only [collectFirst, ih]
      constructor
      · rintro ⟨pre, rest2, rfl, hall⟩
        refine ⟨none :: pre, rest2, rfl, ?_⟩
        intro x hx
        rcases List.mem_cons.mp hx with rfl | hx2
        · rfl
        · exact hall x hx2
      · rintro ⟨pre, rest2, heq, hall⟩
        cases pre with
        | nil =>
          simp only [List.nil_append, List.cons.injEq] at heq
          exact absurd heq.1 (by simp)
        | cons p pre2 =>
          simp only [List.cons_append, List.cons.injEq] at heq
          exact ⟨pre2, rest2, heq.2, fun x hx => hall x (by simp [hx])⟩

/-- Unfolding of the scheduling loop when it stops. -/
theorem scheduleFrom_stop (maxv step i : Nat) (h : ¬(0 < step ∧ i < maxv)) :
    scheduleFrom maxv step i = [] := by
  rw [scheduleFrom]
  exact if_neg h

/-- Unfolding of the scheduling loop when it iterates. -/
theorem scheduleFrom_step (maxv step i : Nat) (h : 0 < step ∧ i < maxv) :
    scheduleFrom maxv step i = i :: scheduleFrom maxv step (i + step) := by
  rw [scheduleFrom]
  exact if_pos h

/-- The number of scheduled tasks, as a ceiling division. -/
theorem scheduleFrom_length (maxv step : Nat) (hstep : 0 < step) :
    ∀ i, (scheduleFrom maxv step i).length = (maxv - i + step - 1) / step := by
  have key : ∀ d i, maxv - i ≤ d →
      (scheduleFrom maxv step i).length = (maxv - i + step - 1) / step := by
    intro d
    induction d with
    | zero =>
      intro i hle
      rw [scheduleFrom_stop maxv step i (fun hc => by omega)]
      have h0 : maxv - i = 0 := by omega
      rw [h0]
      have hdiv : (step - 1) / step = 0 := Nat.div_eq_of_lt (by omega)
      simp [hdiv]
    | succ d ihd =>
      intro i hle
      by_cases hi : i < maxv
      · rw [scheduleFrom_step maxv step i ⟨hstep, hi⟩, List.length_cons,
          ihd (i + step) (by omega)]
        have h2 : maxv - i + step - 1 = (maxv - i - 1) + step := by omega
        rw [h2, Nat.add_div_right _ hstep]
        congr 1
        by_cases hs : step ≤ maxv - i
        · congr 1
          omega
        · have ha : maxv - (i + step) = 0 := by omega
          rw [ha, Nat.div_eq_of_lt (by omega), Nat.div_eq_of_lt (by omega)]
      · rw [scheduleFrom_stop maxv step i (fun hc => hi hc.2)]
        have h0 : maxv - i = 0 := by omega
        rw [h0]
        have hdiv : (step - 1) / step = 0 := Nat.div_eq_of_lt (by omega)
        simp [hdiv]
  intro i
  exact key (maxv - i) i le_rfl

/-- `total_tasks` as computed at line 263 equals the ceiling division, i.e.
exactly the number of loop iterations. -/
theorem totalTasks_eq (maxv step : Nat) (hstep : 0 < step) :
    totalTasks maxv step = (maxv + step - 1) / step := by
  unfold totalTasks
  rw [if_pos hstep]
  rcases Nat.eq_zero_or_pos maxv with h0 | hpos
  · subst h0
    have hdiv : (step - 1) / step = 0 := Nat.div_eq_of_lt (by omega)
    simp [hdiv]
  · have hdm : step * (maxv / step) + maxv % step = maxv := Nat.div_add_mod maxv step
    have hrlt : maxv % step < step := Nat.mod_lt _ hstep
    by_cases hr0 : maxv % step = 0
    · have hmaxv : maxv = step * (maxv / step) := by omega
      have hq1 : 1 ≤ maxv / step := by
        rcases Nat.eq_zero_or_pos (maxv / step) with hq | hq
        · rw [hq, Nat.mul_zero] at hmaxv; omega
        · exact hq
      have harg : maxv + step - 1 = (step - 1) + (maxv / step) * step := by
        rw [Nat.mul_comm (maxv / step) step]
        omega
      have hrhs : ((step - 1) + (maxv / step) * step) / step = maxv / step := by
        rw [Nat.add_mul_div_right _ _ hstep, Nat.div_eq_of_lt (by omega)]
        simp
      rw [harg, hrhs, hr0]
      simp
    · have harg : maxv + step - 1 = (maxv % step - 1) + (maxv / step + 1) * step := by
        have hqs : (maxv / step + 1) * step = step * (maxv / step) + step := by ring
        omega
      have hrhs : ((maxv % step - 1) + (maxv / step + 1) * step) / step = maxv / step + 1 := by
        rw [Nat.add_mul_div_right _ _ hstep,
          Nat.div_eq_of_lt (show maxv % step - 1 < step by omega)]
        simp
      rw [harg, hrhs]
      have hpos' : maxv % step > 0 := by omega
      simp [hpos']

/-- A setup call for a branch whose slot is already set fails with the
SetupOrderViolation enforce, whatever the other arguments are. -/
theorem setup_already_set (k : IfKernel) (node : Node) (attr : String)
    (sub : SubgraphSessionState) (info : Info)
    (h : (if attr == "then_branch" then k.thenInfo else k.elseInfo) = some info) :
    If.setupSubgraphExecutionInfo k node attr sub = .error .setupOrderViolation := by
  cases hb : (attr == "then_branch") <;>
    · simp only [hb] at h
      simp at h
      simp [If.setupSubgraphExecutionInfo, hb, h]

/-- A successful setup call leaves the selected branch's `Info` slot set. -/
theorem setup_ok_selected (k : IfKernel) (node : Node) (attr : String)
    (sub : SubgraphSessionState) (k1 : IfKernel)
    (h : If.setupSubgraphExecutionInfo k node attr sub = .ok k1) :
    ∃ info, (if attr == "then_branch" then k1.thenInfo else k1.elseInfo) = some info := by
  simp only [If.setupSubgraphExecutionInfo] at h
  split at h
  · exact absurd h (by simp)
  · split at h
    · exact absurd h (by simp)
    · split at h
      · exact absurd h (by simp)
      · split at h
        next hbt =>
          simp only [Except.ok.injEq] at h
          subst h
          simp [hbt]
        next hbf =>
          simp only [Except.ok.injEq] at h
          subst h
          have hb : (attr == "then_branch") = false := by
            cases hx : (attr == "then_branch")
            · rfl
            · exact absurd hx hbf
          simp [hb]

/-! ### Concrete instances used by witnesses and counterexamples -/

/-- A then-branch subgraph state: one output of concrete shape, using captures
`a` and `c`. -/
def sgThenState : SubgraphSessionState :=
  { graphViewer := ⟨[⟨"o1", some [.value 2]⟩]⟩, ortValueNames := ["a", "c"] }

/-- An else-branch subgraph state: one output of symbolic shape, using capture
`b`. -/
def sgElseState : SubgraphSessionState :=
  { graphViewer := ⟨[⟨"o1", some [.symbolic]⟩]⟩, ortValueNames := ["b"] }

/-- An `If` node with captures `a`, `b`, `c` and one output. -/
def nodeABC : Node := { implicitInputDefs := ["a", "b", "c"], outputDefs := ["out1"] }

/-- Concrete captured values for `a`, `b`, `c`. -/
def valA : OrtValue := .allocated 100 []
def valB : OrtValue := .allocated 101 []
def valC : OrtValue := .allocated 102 []

/-- A context whose condition is true and whose allocator always succeeds. -/
def ctxT : KernelContext :=
  { condition := true, implicitInputs := [valA, valB, valC]
    allocOutput := fun i s => some (.allocated i s) }

/-- The same context with condition false. -/
def ctxF : KernelContext :=
  { condition := false, implicitInputs := [valA, valB, valC]
    allocOutput := fun i s => some (.allocated i s) }

/-- A trivial branch `Info` over an empty subgraph. -/
def infoEmpty : Info :=
  { usedImplicitInputs := [], numImplicitInputs := 0, numOutputs := 0
    subgraphOutputNames := [], subgraph := ⟨[]⟩ }

/-- A trivial feeds/fetches manager. -/
def ffmEmpty : FeedsFetchesManager := { feedNames := [], fetchNames := [] }

/-- A runner that always succeeds. -/
def runnerOk : Runner := fun _ _ _ _ => .ok ()

/-- A runner that always fails. -/
def runnerBoom : Runner := fun _ _ _ _ => .error (.runnerFailure "boom")

/-- A mixed-output subgraph: one concrete-shaped and one symbolic-shaped
output. -/
def sgMix : GraphViewer :=
  ⟨[⟨"x", some [.value 2, .value 3]⟩, ⟨"y", some [.symbolic]⟩]⟩

/-- The allocation records produced for `sgMix` under `ctxT`. -/
def recsMix : List (AllocationType × OrtValue) :=
  [(.IfOutput, .allocated 0 [2, 3]), (.Delayed, .empty)]

/-! ### Claims -/

/-- C1: For every boolean condition value, `If::Compute` selects the
then-branch when the condition is true and the else-branch when it is false,
and the computation is exactly the Initialize+Execute of the selected branch;
the non-selected branch's `Info`, feeds/fetches manager content and session
state (runner) have no effect whatsoever on the result — no allocation, no
invocation, no side effects — regardless of their contents. -/
theorem C1_compute_selects_exactly_one_branch :
    (∀ (ti ei : Option Info) (tf ef : FeedsFetchesManager) (tr er : Option Runner)
       (ctx : KernelContext),
       If.compute ⟨ti, ei, some tf, some ef⟩ tr er ctx =
         if ctx.condition then runBranch ti tf tr ctx else runBranch ei ef er ctx) ∧
    (∀ (ti : Option Info) (tf : FeedsFetchesManager) (tr : Option Runner)
       (ctx : KernelContext) (e1 e2 : Option Info) (f1 f2 : FeedsFetchesManager)
       (r1 r2 : Option Runner),
       ctx.condition = true →
       If.compute ⟨ti, e1, some tf, some f1⟩ tr r1 ctx =
         If.compute ⟨ti, e2, some tf, some f2⟩ tr r2 ctx) ∧
    (∀ (ei : Option Info) (ef : FeedsFetchesManager) (er : Option Runner)
       (ctx : KernelContext) (t1 t2 : Option Info) (f1 f2 : FeedsFetchesManager)
       (r1 r2 : Option Runner),
       ctx.condition = false →
       If.compute ⟨t1, ei, some f1, some ef⟩ r1 er ctx =
         If.compute ⟨t2, ei, some f2, some ef⟩ r2 er ctx) := by
  refine ⟨compute_dispatch, ?_, ?_⟩
  · intro ti tf tr ctx e1 e2 f1 f2 r1 r2 hc
    rw [compute_dispatch, compute_dispatch, hc]
    simp
  · intro ei ef er ctx t1 t2 f1 f2 r1 r2 hc
    rw [compute_dispatch, compute_dispatch, hc]
    simp

/-- C1 witness: with the condition true, replacing the entire else branch
(its `Info`, manager and runner) leaves the result unchanged. -/
theorem C1_witness :
    If.compute ⟨some infoEmpty, some infoEmpty, some ffmEmpty, some ffmEmpty⟩
        (some runnerOk) (some runnerBoom) ctxT =
      If.compute ⟨some infoEmpty, none, some ffmEmpty, some ffmEmpty⟩
        (some runnerOk) none ctxT :=
  C1_compute_selects_exactly_one_branch.2.1 (some infoEmpty) ffmEmpty (some runnerOk)
    ctxT (some infoEmpty) none ffmEmpty ffmEmpty (some runnerBoom) none rfl

/-- C6 counterexample: the claim says invocation proceeds past the NotSetUp
check whenever the selected branch's plan is present. Here the condition is
true and the then-branch's plan is present (and its `Info` and session state
too), yet `Compute` fails with NotSetUp because the else-branch's plan is
missing: the enforce at line 193 demands both managers. -/
theorem C6_counterexample :
    ctxT.condition = true ∧
    (⟨some infoEmpty, none, some ffmEmpty, none⟩ : IfKernel).thenFFM = some ffmEmpty ∧
    If.compute ⟨some infoEmpty, none, some ffmEmpty, none⟩ (some runnerOk) none ctxT =
      .error .notSetUp :=
  ⟨rfl, rfl, rfl⟩

/-- C6 (amended): `Compute` fails with NotSetUp whenever either branch's
feeds/fetches plan — not merely the selected branch's — was never finalized;
only when both plans are present does invocation proceed past this check, to
the dispatch on the selected branch. -/
theorem C6_notSetUp_requires_both_plans :
    (∀ (k : IfKernel) (tr er : Option Runner) (ctx : KernelContext),
       (k.thenFFM = none ∨ k.elseFFM = none) →
       If.compute k tr er ctx = .error .notSetUp) ∧
    (∀ (ti ei : Option Info) (tf ef : FeedsFetchesManager) (tr er : Option Runner)
       (ctx : KernelContext),
       If.compute ⟨ti, ei, some tf, some ef⟩ tr er ctx =
         if ctx.condition then runBranch ti tf tr ctx else runBranch ei ef er ctx) := by
  constructor
  · intro k tr er ctx h
    obtain ⟨ti, ei, tffm, effm⟩ := k
    rcases h with h | h <;> simp only at h <;> subst h
    · cases effm <;> rfl
    · cases tffm <;> rfl
  · intro ti ei tf ef tr er ctx
    exact compute_dispatch ti ei tf ef tr er ctx

/-- C6 witness: a kernel with the then plan present but the else plan missing
falls under the amended rule and fails with NotSetUp. -/
theorem C6_witness :
    If.compute ⟨some infoEmpty, some infoEmpty, none, some ffmEmpty⟩
        (some runnerOk) (some runnerOk) ctxF = .error .notSetUp :=
  C6_notSetUp_requires_both_plans.1
    ⟨some infoEmpty, some infoEmpty, none, some ffmEmpty⟩
    (some runnerOk) (some runnerOk) ctxF (Or.inl rfl)

/-- C2: When `AllocateOutputTensors` (the whole of Initialize) succeeds, each
declared subgraph output, in order, got a record: for a fully concrete shape
the enclosing context allocated a buffer of that shape at the same output
slot and the record is `IfOutput` holding that buffer; for a shape with an
unresolved dimension the record is `Delayed` with the empty placeholder. When
an output has no shape descriptor at all (and earlier outputs do, the
allocator being total), it fails with the ShapeMissing error for that
output. -/
theorem C2_allocate_records_resolved_deferred_shapeMissing :
    (∀ (ctx : KernelContext) (sg : GraphViewer) (recs : List (AllocationType × OrtValue)),
       allocateOutputTensors ctx sg = .ok recs →
       recs.length = sg.outputs.length ∧
       ∀ i d, sg.outputs[i]? = some d →
         ∃ dims, d.shape = some dims ∧
           ((shapeHasSymbolic dims = true ∧ recs[i]? = some (.Delayed, .empty)) ∨
            (shapeHasSymbolic dims = false ∧
              ∃ v, ctx.allocOutput i (concreteShape dims) = some v ∧
                recs[i]? = some (.IfOutput, v)))) ∧
    (∀ (ctx : KernelContext) (sg : GraphViewer) (j : Nat) (d : OutputDef),
       (∀ i s, ctx.allocOutput i s ≠ none) →
       sg.outputs[j]? = some d → d.shape = none →
       (∀ k dk, k < j → sg.outputs[k]? = some dk → dk.shape ≠ none) →
       allocateOutputTensors ctx sg = .error (.shapeMissing d.name)) := by
  constructor
  · intro ctx sg recs h
    have hchar := allocLoop_ok_char ctx sg.outputs 0 recs h
    refine ⟨hchar.1, ?_⟩
    intro i d hd
    have := hchar.2 i d hd
    simpa using this
  · intro ctx sg j d htotal hd hshape hprev
    exact allocLoop_shapeMissing ctx htotal sg.outputs 0 j d hd hshape hprev

/-- C2 witness: on a subgraph with one concrete-shaped and one symbolic-shaped
output, the records are `IfOutput` with the buffer allocated at slot 0 with
shape `[2, 3]`, then `Delayed` with the empty placeholder. -/
theorem C2_witness :
    allocateOutputTensors ctxT sgMix = .ok recsMix ∧
    (recsMix.length = sgMix.outputs.length ∧
     ∀ i d, sgMix.outputs[i]? = some d →
       ∃ dims, d.shape = some dims ∧
         ((shapeHasSymbolic dims = true ∧ recsMix[i]? = some (.Delayed, .empty)) ∨
          (shapeHasSymbolic dims = false ∧
            ∃ v, ctxT.allocOutput i (concreteShape dims) = some v ∧
              recsMix[i]? = some (.IfOutput, v)))) :=
  ⟨rfl, C2_allocate_records_resolved_deferred_shapeMissing.1 ctxT sgMix recsMix rfl⟩

/-- C3: the feed list built by `IfImpl::Execute` consists of exactly the
captured values whose entry the pruning marked used, in the enclosing scope's
original relative order, and the feed-name list built at setup selects
exactly the same positions in the same order. -/
theorem C3_feeds_preserve_enclosing_order :
    ∀ (implicitNames : List String) (vals : List OrtValue) (sgNames : List String),
    implicitNames.length = vals.length →
    buildFeeds (pruneImplicitInputs implicitNames sgNames).1 vals =
      ((implicitNames.zip vals).filter (fun p => p.1 ∈ sgNames)).map (·.2) ∧
    (pruneImplicitInputs implicitNames sgNames).2 =
      ((implicitNames.zip vals).filter (fun p => p.1 ∈ sgNames)).map (·.1) := by
  intro implicitNames
  induction implicitNames with
  | nil =>
    intro vals sgNames hlen
    simp [pruneImplicitInputs, buildFeeds]
  | cons n rest ih =>
    intro vals sgNames hlen
    cases vals with
    | nil => simp at hlen
    | cons v vs =>
      have hlen' : rest.length = vs.length := by simpa using hlen
      obtain ⟨ih1, ih2⟩ := ih vs sgNames hlen'
      by_cases hm : n ∈ sgNames
      · simp [pruneImplicitInputs, buildFeeds, List.filter_cons, hm, ih1, ih2]
      · simp [pruneImplicitInputs, buildFeeds, List.filter_cons, hm, ih1, ih2]

/-- C3 witness: with captures `a`, `b`, `c`, the then-branch (slot map
`{a, c}`) is fed exactly `[valA, valC]` in that relative order, and the
else-branch (slot map `{b}`) exactly `[valB]`. -/
theorem C3_witness :
    buildFeeds (pruneImplicitInputs ["a", "b", "c"] ["a", "c"]).1 [valA, valB, valC] =
      (((["a", "b", "c"]).zip [valA, valB, valC]).filter
        (fun p => p.1 ∈ ["a", "c"])).map (·.2) ∧
    buildFeeds (pruneImplicitInputs ["a", "b", "c"] ["b"]).1 [valA, valB, valC] =
      (((["a", "b", "c"]).zip [valA, valB, valC]).filter
        (fun p => p.1 ∈ ["b"])).map (·.2) ∧
    buildFeeds (pruneImplicitInputs ["a", "b", "c"] ["a", "c"]).1 [valA, valB, valC] =
      [valA, valC] ∧
    buildFeeds (pruneImplicitInputs ["a", "b", "c"] ["b"]).1 [valA, valB, valC] =
      [valB] :=
  ⟨(C3_feeds_preserve_enclosing_order ["a", "b", "c"] [valA, valB, valC]
      ["a", "c"] (by decide)).1,
   (C3_feeds_preserve_enclosing_order ["a", "b", "c"] [valA, valB, valC]
      ["b"] (by decide)).1,
   rfl, rfl⟩

/-- C4: during setup of one branch, every candidate captured name absent from
that branch's own slot map is marked unused at its position and excluded from
the branch's feed names, and setup nevertheless succeeds (given the arity
check passes) — a capture used only by the sibling branch does not break this
branch. -/
theorem C4_absent_captures_pruned_without_error :
    ∀ (k : IfKernel) (node : Node) (attr : String) (sub : SubgraphSessionState),
    (if attr == "then_branch" then k.thenInfo else k.elseInfo) = none →
    sub.graphViewer.outputs.length = node.outputDefs.length →
    ∃ k' info ffm,
      If.setupSubgraphExecutionInfo k node attr sub = .ok k' ∧
      (if attr == "then_branch" then k'.thenInfo else k'.elseInfo) = some info ∧
      (if attr == "then_branch" then k'.thenFFM else k'.elseFFM) = some ffm ∧
      (∀ (i : Nat) (n : String), node.implicitInputDefs[i]? = some n →
         n ∉ sub.ortValueNames → info.usedImplicitInputs[i]? = some false) ∧
      ffm.feedNames = node.implicitInputDefs.filter (fun n => n ∈ sub.ortValueNames) ∧
      (∀ n, n ∈ node.implicitInputDefs → n ∉ sub.ortValueNames →
         n ∉ ffm.feedNames) := by
  intro k node attr sub hnone hlen
  have hok := setup_ok_char k node attr sub hnone hlen
  have hused : ∀ (i : Nat) (n : String), node.implicitInputDefs[i]? = some n →
      n ∉ sub.ortValueNames →
      (prunedInfo node sub).usedImplicitInputs[i]? = some false := by
    intro i n hi hn
    simp only [prunedInfo, pruneImplicitInputs_eq, List.getElem?_map, hi,
      Option.map_some]
    simp [hn]
  have hfeeds : (prunedFFM node sub).feedNames =
      node.implicitInputDefs.filter (fun n => n ∈ sub.ortValueNames) := by
    simp only [prunedFFM, pruneImplicitInputs_eq]
  have hexcl : ∀ n, n ∈ node.implicitInputDefs → n ∉ sub.ortValueNames →
      n ∉ (prunedFFM node sub).feedNames := by
    intro n _ hn hmem
    rw [hfeeds] at hmem
    have := List.of_mem_filter hmem
    simp at this
    exact hn this
  cases hb : (attr == "then_branch")
  · refine ⟨⟨k.thenInfo, some (prunedInfo node sub), k.thenFFM, some (prunedFFM node sub)⟩,
      prunedInfo node sub, prunedFFM node sub, ?_, ?_, ?_, hused, hfeeds, hexcl⟩
    · rw [hok, hb]
      simp
    · simp [hb]
    · simp [hb]
  · refine ⟨⟨some (prunedInfo node sub), k.elseInfo, some (prunedFFM node sub), k.elseFFM⟩,
      prunedInfo node sub, prunedFFM node sub, ?_, ?_, ?_, hused, hfeeds, hexcl⟩
    · rw [hok, hb]
      simp
    · simp [hb]
    · simp [hb]

/-- C4 witness: setting up the then-branch whose slot map lacks capture `b`
(used only by the sibling else-branch) succeeds, marks position 1 unused and
excludes `b` from the feed names. -/
theorem C4_witness :
    ∃ k' info ffm,
      If.setupSubgraphExecutionInfo IfKernel.fresh nodeABC "then_branch" sgThenState =
        .ok k' ∧
      (if "then_branch" == "then_branch" then k'.thenInfo else k'.elseInfo) = some info ∧
      (if "then_branch" == "then_branch" then k'.thenFFM else k'.elseFFM) = some ffm ∧
      (∀ (i : Nat) (n : String), nodeABC.implicitInputDefs[i]? = some n →
         n ∉ sgThenState.ortValueNames → info.usedImplicitInputs[i]? = some false) ∧
      ffm.feedNames =
        nodeABC.implicitInputDefs.filter (fun n => n ∈ sgThenState.ortValueNames) ∧
      (∀ n, n ∈ nodeABC.implicitInputDefs → n ∉ sgThenState.ortValueNames →
         n ∉ ffm.feedNames) :=
  C4_absent_captures_pruned_without_error IfKernel.fresh nodeABC "then_branch"
    sgThenState rfl (by decide)

/-- C5: `ExecuteLambdaInParallel` (for a positive step, as the loop requires)
schedules exactly `total_tasks` tasks; after gathering every result it returns
normally exactly when no task failed, and returns failure `e` exactly when `e`
is the captured failure of the earliest failing task in scheduling order —
every task scheduled before it having succeeded. -/
theorem C5_parallel_first_failure (ε : Type) (lambda : Nat → Option ε)
    (maxv step : Nat) (hstep : 0 < step) :
    (scheduleFrom maxv step 0).length = totalTasks maxv step ∧
    (ExecuteLambdaInParallel lambda maxv step = none ↔
       ∀ i ∈ scheduleFrom maxv step 0, lambda i = none) ∧
    (∀ e, ExecuteLambdaInParallel lambda maxv step = some e ↔
       ∃ pre rest, (scheduleFrom maxv step 0).map lambda = pre ++ some e :: rest ∧
         ∀ x ∈ pre, x = none) := by
  refine ⟨?_, ?_, ?_⟩
  · rw [scheduleFrom_length maxv step hstep 0, totalTasks_eq maxv step hstep,
      Nat.sub_zero]
  · rw [ExecuteLambdaInParallel, collectFirst_none_iff]
    simp
  · intro e
    rw [ExecuteLambdaInParallel, collectFirst_some_iff]

/-- A concrete task family: tasks 4 and 6 fail, all others succeed. -/
def lamW : Nat → Option String :=
  fun i => if i = 4 then some "e4" else if i = 6 then some "e6" else none

/-- C5 witness: over schedule `[0, 2, 4, 6, 8]`, where tasks 4 and 6 both
fail, the helper re-raises the failure of task 4 — the earliest in scheduling
order. -/
theorem C5_witness : ExecuteLambdaInParallel lamW 10 2 = some "e4" :=
  ((C5_parallel_first_failure String lamW 10 2 (by decide)).2.2 "e4").mpr
    ⟨[none, none], [some "e6", none], by simp [scheduleFrom, lamW], by simp⟩

/-- C7: constructing a branch's `Info` fails with the ArityMismatch enforce
whenever the subgraph's output count differs from the node's output count,
and the same failure surfaces from `SetupSubgraphExecutionInfo` — i.e. at
setup time, before any invocation. -/
theorem C7_arity_mismatch_at_setup :
    ∀ (node : Node) (sg : GraphViewer),
    sg.outputs.length ≠ node.outputDefs.length →
    Info.make node sg =
      .error (.arityMismatch node.outputDefs.length sg.outputs.length) ∧
    ∀ (k : IfKernel) (attr : String) (sub : SubgraphSessionState),
      sub.graphViewer = sg →
      (if attr == "then_branch" then k.thenInfo else k.elseInfo) = none →
      If.setupSubgraphExecutionInfo k node attr sub =
        .error (.arityMismatch node.outputDefs.length sg.outputs.length) := by
  intro node sg hne
  have hmk : Info.make node sg =
      .error (.arityMismatch node.outputDefs.length sg.outputs.length) := by
    simp [Info.make, hne]
  refine ⟨hmk, ?_⟩
  intro k attr sub hsub hnone
  cases hb : (attr == "then_branch") <;>
    · simp only [hb] at hnone
      simp at hnone
      simp [If.setupSubgraphExecutionInfo, hb, hnone, hsub, hmk]

/-- A node declaring three outputs. -/
def node3 : Node := { implicitInputDefs := [], outputDefs := ["o1", "o2", "o3"] }

/-- A subgraph declaring two outputs. -/
def sg2 : GraphViewer := ⟨[⟨"p1", some []⟩, ⟨"p2", some []⟩]⟩

/-- C7 witness: a branch declaring 2 outputs while the node declares 3 fails
with ArityMismatch at `Info` construction. -/
theorem C7_witness :
    sg2.outputs.length ≠ node3.outputDefs.length ∧
    Info.make node3 sg2 =
      .error (.arityMismatch node3.outputDefs.length sg2.outputs.length) :=
  ⟨by decide, (C7_arity_mismatch_at_setup node3 sg2 (by decide)).1⟩

/-- C8: a second `SetupSubgraphExecutionInfo` call for the same branch name
(after a successful first call) fails with the SetupOrderViolation enforce,
whatever node and subgraph state it is given; and on a fresh kernel the first
call for each of the two branch names succeeds (given the arity checks
pass). -/
theorem C8_setup_once_per_branch :
    (∀ (k : IfKernel) (node : Node) (attr : String) (sub : SubgraphSessionState)
       (k1 : IfKernel),
       If.setupSubgraphExecutionInfo k node attr sub = .ok k1 →
       ∀ (node2 : Node) (sub2 : SubgraphSessionState),
         If.setupSubgraphExecutionInfo k1 node2 attr sub2 =
           .error .setupOrderViolation) ∧
    (∀ (node : Node) (subT subE : SubgraphSessionState),
       subT.graphViewer.outputs.length = node.outputDefs.length →
       subE.graphViewer.outputs.length = node.outputDefs.length →
       ∃ k1 k2,
         If.setupSubgraphExecutionInfo IfKernel.fresh node "then_branch" subT = .ok k1 ∧
         If.setupSubgraphExecutionInfo k1 node "else_branch" subE = .ok k2) := by
  constructor
  · intro k node attr sub k1 hok node2 sub2
    obtain ⟨info, hinfo⟩ := setup_ok_selected k node attr sub k1 hok
    exact setup_already_set k1 node2 attr sub2 info hinfo
  · intro node subT subE hT hE
    have h1 := setup_ok_char IfKernel.fresh node "then_branch" subT rfl hT
    have h2 := setup_ok_char
      ⟨some (prunedInfo node subT), none, some (prunedFFM node subT), none⟩
      node "else_branch" subE rfl hE
    refine ⟨⟨some (prunedInfo node subT), none, some (prunedFFM node subT), none⟩,
      ⟨some (prunedInfo node subT), some (prunedInfo node subE),
        some (prunedFFM node subT), some (prunedFFM node subE)⟩, ?_, ?_⟩
    · rw [h1]
      rfl
    · rw [h2]
      rfl

/-- C8 witness: on a fresh kernel, then-setup followed by else-setup both
succeed with the example node and branch states. -/
theorem C8_witness :
    ∃ k1 k2,
      If.setupSubgraphExecutionInfo IfKernel.fresh nodeABC "then_branch" sgThenState =
        .ok k1 ∧
      If.setupSubgraphExecutionInfo k1 nodeABC "else_branch" sgElseState = .ok k2 :=
  C8_setup_once_per_branch.2 nodeABC sgThenState sgElseState rfl rfl

/-- C9: a failure returned by the subgraph runner is propagated unchanged
through `IfImpl::Execute` and through `If::Compute` to the caller — never
swallowed, retried or modified; and a failure inside the unselected branch
never surfaces: with the condition false, an always-failing then-runner still
yields the else branch's success. -/
theorem C9_runner_failure_propagates_unchanged :
    (∀ (runner : Runner) (info : Info) (ctx : KernelContext)
       (outs : List (AllocationType × OrtValue)) (ffm : FeedsFetchesManager)
       (e : IfError),
       runner ffm (buildFeeds info.usedImplicitInputs ctx.implicitInputs)
         (buildFetches outs) (delayedIndices outs) = .error e →
       ifImplExecute runner info ctx outs ffm = .error e) ∧
    (∀ (info : Info) (ei : Option Info) (tf ef : FeedsFetchesManager) (r : Runner)
       (er : Option Runner) (ctx : KernelContext)
       (outs : List (AllocationType × OrtValue)) (e : IfError),
       ctx.condition = true →
       allocateOutputTensors ctx info.subgraph = .ok outs →
       r tf (buildFeeds info.usedImplicitInputs ctx.implicitInputs)
         (buildFetches outs) (delayedIndices outs) = .error e →
       If.compute ⟨some info, ei, some tf, some ef⟩ (some r) er ctx = .error e) ∧
    (∀ (ti ei : Option Info) (tf ef : FeedsFetchesManager) (er : Option Runner)
       (ctx : KernelContext) (e : IfError),
       ctx.condition = false →
       runBranch ei ef er ctx = .ok () →
       If.compute ⟨ti, ei, some tf, some ef⟩
         (some (fun _ _ _ _ => .error e)) er ctx = .ok ()) := by
  refine ⟨?_, ?_, ?_⟩
  · intro runner info ctx outs ffm e h
    simp only [ifImplExecute, h]
  · intro info ei tf ef r er ctx outs e hc halloc hr
    rw [compute_dispatch, hc]
    simp [runBranch, ifImplExecute, halloc, hr]
  · intro ti ei tf ef er ctx e hc hok
    rw [compute_dispatch, hc]
    simpa using hok

/-- C9 witness: with the condition true and an empty then-subgraph, the
runner's failure surfaces verbatim from `Compute`. -/
theorem C9_witness :
    If.compute ⟨some infoEmpty, none, some ffmEmpty, some ffmEmpty⟩
        (some runnerBoom) none ctxT = .error (.runnerFailure "boom") :=
  C9_runner_failure_propagates_unchanged.2.1 infoEmpty none ffmEmpty ffmEmpty
    runnerBoom none ctxT [] (.runnerFailure "boom") rfl rfl rfl

/-- C10: after a successful Initialize over an `Info` built by `Info::Info`,
there is exactly one allocation record per declared output (in subgraph output
order); Execute's fetch list has exactly one entry per output, entry `i`
carrying record `i`'s value (the eagerly allocated buffer for `IfOutput`
slots), and a fetch allocator is registered for index `i` iff record `i` is
tagged `Delayed`. -/
theorem C10_one_record_per_output :
    ∀ (node : Node) (sg : GraphViewer) (info : Info) (ctx : KernelContext)
      (recs : List (AllocationType × OrtValue)),
    Info.make node sg = .ok info →
    allocateOutputTensors ctx info.subgraph = .ok recs →
    recs.length = info.numOutputs ∧
    (buildFetches recs).length = info.numOutputs ∧
    (∀ (i : Nat) (r : AllocationType × OrtValue), recs[i]? = some r →
       (buildFetches recs)[i]? = some r.2) ∧
    (∀ i : Nat, i ∈ delayedIndices recs ↔ ∃ v, recs[i]? = some (.Delayed, v)) := by
  intro node sg info ctx recs hmk halloc
  have hinfo : info.subgraph = sg ∧ info.numOutputs = node.outputDefs.length ∧
      sg.outputs.length = node.outputDefs.length := by
    by_cases hlen : sg.outputs.length = node.outputDefs.length
    · simp only [Info.make, hlen, if_true, Except.ok.injEq] at hmk
      exact ⟨by rw [← hmk], by rw [← hmk], hlen⟩
    · simp [Info.make, hlen] at hmk
  obtain ⟨hsg, hnum, hlen⟩ := hinfo
  have hlen' := (allocLoop_ok_char ctx info.subgraph.outputs 0 recs halloc).1
  have hreclen : recs.length = info.numOutputs := by
    rw [hlen', hsg, hlen, hnum]
  refine ⟨hreclen, ?_, ?_, ?_⟩
  · simpa [buildFetches] using hreclen
  · intro i r hr
    simp [buildFetches, List.getElem?_map, hr]
  · intro i
    rw [delayedIndices, delayedIndicesFrom_mem]
    constructor
    · rintro ⟨j, v, hj, h⟩
      obtain rfl : j = i := by omega
      exact ⟨v, h⟩
    · rintro ⟨v, h⟩
      exact ⟨i, v, by omega, h⟩

/-- The `Info` built by `Info::Info` for `nodeABC` and the then subgraph. -/
def infoThen : Info :=
  { usedImplicitInputs := [true, true, true], numImplicitInputs := 3
    numOutputs := 1, subgraphOutputNames := ["o1"]
    subgraph := ⟨[⟨"o1", some [.value 2]⟩]⟩ }

/-- The allocation records for `infoThen` under `ctxT`. -/
def recsThen : List (AllocationType × OrtValue) := [(.IfOutput, .allocated 0 [2])]

/-- C10 witness: one declared output yields one record, one fetch, and no
registered allocator (the record is `IfOutput`). -/
theorem C10_witness :
    Info.make nodeABC sgThenState.graphViewer = .ok infoThen ∧
    allocateOutputTensors ctxT infoThen.subgraph = .ok recsThen ∧
    recsThen.length = infoThen.numOutputs ∧
    (∀ i : Nat, i ∈ delayedIndices recsThen ↔ ∃ v, recsThen[i]? = some (.Delayed, v)) :=
  ⟨rfl, rfl,
   (C10_one_record_per_output nodeABC sgThenState.graphViewer infoThen ctxT recsThen
     rfl rfl).1,
   (C10_one_record_per_output nodeABC sgThenState.graphViewer infoThen ctxT recsThen
     rfl rfl).2.2.2⟩

end OnnxIf
